import Mathlib

/-!
Verification development for the obsidian-auto-card-link repository.

The repository's URL-classification logic is driven by the regular
expressions declared in `src/settings.ts` (`DEFAULT_SETTINGS.regex`,
`lineRegex`, `linkRegex`, `imageRegex`); the paste / selection handlers
live in `src/main.ts`.  The `CheckIf` wrapper class, the constants module
`src/regex` and the card-block codec (`code_block_generator` /
`code_block_processor`) are not part of the provided sources; where a
definition below models one of those missing pieces it says so in its
doc comment and follows the specification's words.

All string processing is embedded over `List Char` (`String.data`), and
the JavaScript regexes are translated into deterministic parsers.  The
determinism is justified in the doc comments: every nondeterministic
choice point of the original patterns is forced because the character
classes involved are disjoint.
-/

namespace AutoCardLink

/-- Characters matched by the JavaScript regex class `\s` (ECMA-262
WhiteSpace plus LineTerminator), used to translate `[^\s]` and the
behaviour of `String.prototype.trim`. -/
def isJsWs (c : Char) : Bool :=
  c = ' ' || c = '\t' || c = '\n' || c = '\r' || c = '\x0b' || c = '\x0c' ||
  c.toNat = 0xa0 || c.toNat = 0x1680 ||
  (0x2000 ≤ c.toNat && c.toNat ≤ 0x200a) ||
  c.toNat = 0x2028 || c.toNat = 0x2029 || c.toNat = 0x202f ||
  c.toNat = 0x205f || c.toNat = 0x3000 || c.toNat = 0xfeff

/-- JavaScript `String.prototype.trim`: drop leading and trailing
whitespace characters. -/
def trimJS (cs : List Char) : List Char :=
  ((cs.dropWhile isJsWs).reverse.dropWhile isJsWs).reverse

/-- `String`-level wrapper of `trimJS`. -/
def trimS (s : String) : String :=
  String.mk (trimJS s.data)

/-- The regex character class `[a-zA-Z0-9]` (ASCII alphanumeric; the `i`
flag does not change this class). -/
def isAlnumB (c : Char) : Bool :=
  c.isAlphanum

/-- The regex character class `[a-zA-Z0-9-]`: characters allowed inside a
hostname label of `DEFAULT_SETTINGS.regex`. -/
def isLabelChar (c : Char) : Bool :=
  c.isAlphanum || c = '-'

/-- Case-insensitive character comparison, translating the `i` flag. -/
def charCI (a b : Char) : Bool :=
  a.toLower = b.toLower

/-- Case-insensitive list equality (pointwise `charCI`). -/
def ciEqB : List Char → List Char → Bool
  | [], [] => true
  | a :: as', b :: bs' => charCI a b && ciEqB as' bs'
  | _, _ => false

/-- Consume a case-insensitive literal pattern from the front of the
input, returning the remainder; translates matching a fixed literal such
as `https?:\/\/` or `www\.` under the `i` flag. -/
def stripCI : List Char → List Char → Option (List Char)
  | [], cs => some cs
  | _ :: _, [] => none
  | p :: ps, c :: cs => if charCI p c then stripCI ps cs else none

/-- Does the input start (case-insensitively) with `www`?  Translates the
lookahead `(?!www)` of `DEFAULT_SETTINGS.regex` (negated). -/
def startsWithWwwCI (cs : List Char) : Bool :=
  (stripCI ['w', 'w', 'w'] cs).isSome

/-- Consume the scheme `https?:\/\/` of `DEFAULT_SETTINGS.regex`
(case-insensitive).  `https?` followed by the literal `://` is
deterministic: if the character after `http` is `s`/`S` the `://` must
follow it, otherwise it must follow `http` directly, and the two cases
exclude each other. -/
def stripScheme (cs : List Char) : Option (List Char) :=
  match stripCI ['h', 't', 't', 'p', ':', '/', '/'] cs with
  | some r => some r
  | none => stripCI ['h', 't', 't', 'p', 's', ':', '/', '/'] cs

/-- Consume the prefix part of `DEFAULT_SETTINGS.regex` from
`src/settings.ts`: either `https?:\/\/(?:www\.|(?!www))` (branches 1 and
3 of the alternation) or the bare `www\.` (branches 2 and 4).  The
alternation `www\.|(?!www)` is deterministic: if the text after the
scheme begins with the literal `www.` that branch is taken; otherwise
the lookahead branch applies exactly when the text does not begin with
`www`. -/
def stripUrlHead (cs : List Char) : Option (List Char) :=
  match stripScheme cs with
  | some r =>
    match stripCI ['w', 'w', 'w', '.'] r with
    | some r2 => some r2
    | none => if startsWithWwwCI r then none else some r
  | none => stripCI ['w', 'w', 'w', '.'] cs

/-- Is a hostname label acceptable to `DEFAULT_SETTINGS.regex`?  The run
`run` consists of `[a-zA-Z0-9-]` characters (guaranteed by the caller);
the union of the two label shapes of the regex,
`[a-zA-Z0-9][a-zA-Z0-9-]+[a-zA-Z0-9]` (length at least 3) and
`[a-zA-Z0-9]+` (pure alphanumeric), is exactly: non-empty, first and
last character alphanumeric. -/
def labelOkB (run : List Char) : Bool :=
  match run.head?, run.getLast? with
  | some a, some b => isAlnumB a && isAlnumB b
  | _, _ => false

/-- Full anchored match of the body of `DEFAULT_SETTINGS.regex` after the
prefix: `[label]\.[^\s]{2,}` followed by the anchor `$`.  The label run
is forced to be the maximal run of `[a-zA-Z0-9-]` characters because the
`\.` that follows it is not a label character, and with the `$` anchor
the tail `[^\s]{2,}` matches exactly when everything to the end of the
string is non-whitespace and at least 2 characters long. -/
def labelDotRestFull (cs : List Char) : Bool :=
  labelOkB (cs.takeWhile isLabelChar) &&
    match cs.dropWhile isLabelChar with
    | d :: rest =>
      d = '.' && decide (2 ≤ rest.length) && rest.all (fun c => !isJsWs c)
    | [] => false

/-- Full anchored match of `DEFAULT_SETTINGS.regex` from `src/settings.ts`:

`/^(https?:\/\/(?:www\.|(?!www))[a-zA-Z0-9][a-zA-Z0-9-]+[a-zA-Z0-9]\.[^\s]\x7b2,\x7d|www\.[a-zA-Z0-9][a-zA-Z0-9-]+[a-zA-Z0-9]\.[^\s]\x7b2,\x7d|https?:\/\/(?:www\.|(?!www))[a-zA-Z0-9]+\.[^\s]\x7b2,\x7d|www\.[a-zA-Z0-9]+\.[^\s]\x7b2,\x7d)$/i`

The four alternation branches share the structure prefix + label + `.` +
tail; branches 1/3 and 2/4 differ only in the label shape (merged in
`labelOkB`) and branches 1/3 versus 2/4 in the prefix (merged in
`stripUrlHead`, and they are mutually exclusive on any given input since
one requires a leading `h`/`H` and the other a leading `w`/`W`). -/
def urlFullB (cs : List Char) : Bool :=
  match stripUrlHead cs with
  | none => false
  | some rest => labelDotRestFull rest

/-- Modelled from the spec: `CheckIf.isUrl` from the missing
`src/checkif` module.  Per the specification it is true iff the entire
trimmed string matches the bare-URL regex `DEFAULT_SETTINGS.regex`
(which is anchored at both ends). -/
def isUrl (s : String) : Bool :=
  urlFullB (trimJS s.data)

/-- The extension alternatives of `DEFAULT_SETTINGS.imageRegex`:
`gif|jpe?g|tiff?|png|webp|bmp|tga|psd|ai` expanded. -/
def imageExtList : List String :=
  ["gif", "jpg", "jpeg", "tif", "tiff", "png", "webp", "bmp", "tga", "psd", "ai"]

/-- Does the regex `\.(gif|jpe?g|tiff?|png|webp|bmp|tga|psd|ai)$` match
starting exactly at this position?  With the `$` anchor the remainder of
the string must be a dot followed by one of the extensions
(case-insensitively, `i` flag). -/
def imageMatchHere (cs : List Char) : Bool :=
  match cs with
  | '.' :: rest => imageExtList.any (fun e => ciEqB rest e.data)
  | _ => false

/-- Unanchored search for `imageMatchHere`: the JavaScript `test` of an
unanchored regex succeeds iff the pattern matches at some position. -/
def imageSearch : List Char → Bool
  | [] => imageMatchHere []
  | c :: t => imageMatchHere (c :: t) || imageSearch t

/-- Modelled from the spec: `CheckIf.isImage` from the missing
`src/checkif` module: `DEFAULT_SETTINGS.imageRegex.test(text)`
(`src/settings.ts` line 24); an unanchored-at-the-left, `$`-anchored,
case-insensitive extension test. -/
def isImage (s : String) : Bool :=
  imageSearch s.data

/-- One attempted match of `DEFAULT_SETTINGS.lineRegex` (the same
alternation as `DEFAULT_SETTINGS.regex` without the `^`/`$` anchors)
starting exactly at the head of `cs`; returns the length of the match.
Without the `$` anchor the greedy tail `[^\s]\x7b2,\x7d` takes the maximal
run of non-whitespace characters. -/
def matchAt (cs : List Char) : Option Nat :=
  match stripUrlHead cs with
  | none => none
  | some rest =>
    let headLen := cs.length - rest.length
    let run := rest.takeWhile isLabelChar
    if labelOkB run then
      match rest.dropWhile isLabelChar with
      | d :: r2 =>
        if d = '.' then
          let nws := r2.takeWhile (fun c => !isJsWs c)
          if 2 ≤ nws.length then some (headLen + run.length + 1 + nws.length)
          else none
        else none
      | [] => none
    else none

/-- Repeated matching of `DEFAULT_SETTINGS.lineRegex` under the `g`
flag: scan left to right, try a match at each position, and on success
resume after the matched substring.  `fuel` (initially the input length)
only serves termination; each step consumes at least one character. -/
def lineScanGo : Nat → List Char → List (List Char)
  | 0, _ => []
  | _ + 1, [] => []
  | fuel + 1, c :: t =>
    match matchAt (c :: t) with
    | some n => (c :: t).take n :: lineScanGo fuel ((c :: t).drop n)
    | none => lineScanGo fuel t

/-- Modelled from the spec: the "line scan" variant of the bare-URL
grammar — `DEFAULT_SETTINGS.lineRegex` (`src/settings.ts` lines 18-19)
applied globally, returning every matched URL substring in order. -/
def lineScan (s : String) : List String :=
  (lineScanGo s.data.length s.data).map String.mk

/-- Anchored full match of `DEFAULT_SETTINGS.linkRegex` from
`src/settings.ts` (also the constant `linkRegex` of the missing
`src/regex` module used by `getUrlFromLink` in `src/main.ts`):

`/^\[([^[\]]*)\]\((url alternation)\)$/i`

returning the two capture groups (label, url).  The label run is forced
maximal because the `\]` that must follow it is excluded from the label
class; the `\)$` forces the closing parenthesis to be the final
character of the string, so the url group is everything strictly
between `](` and that final character, and the url alternation must
match that group entirely — which, as in `urlFullB`, happens exactly
when `urlFullB` accepts it. -/
def parseLinkB (cs : List Char) : Option (List Char × List Char) :=
  match cs with
  | [] => none
  | c0 :: t =>
    if c0 = '[' then
      match t.dropWhile (fun c => !(c = '[' || c = ']')) with
      | d1 :: d2 :: r =>
        if d1 = ']' ∧ d2 = '(' then
          match r.getLast? with
          | some dl =>
            if dl = ')' ∧ urlFullB r.dropLast then
              some (t.takeWhile (fun c => !(c = '[' || c = ']')), r.dropLast)
            else none
          | none => none
        else none
      | _ => none
    else none

/-- Modelled from the spec: `CheckIf.isLinkedUrl` from the missing
`src/checkif` module: true iff the entire trimmed string matches
`DEFAULT_SETTINGS.linkRegex`. -/
def isLinkedUrl (s : String) : Bool :=
  (parseLinkB (trimJS s.data)).isSome

/-- `getUrlFromLink` from `src/main.ts` lines 174-181: run `linkRegex`
over the input; if there is no match (or fewer than two entries in the
match array, which cannot happen on a successful match of this
two-group pattern) return the empty string, otherwise return capture
group 2, the URL. -/
def getUrlFromLink (link : String) : String :=
  match parseLinkB link.data with
  | some (_, u) => String.mk u
  | none => ""

/-- Outcome of the `editor-paste` event handler, as observable through
the editor: either the handler returns without acting (the host's
default paste inserts the clipboard text unchanged) or it claims the
event and converts the URL to a card block. -/
inductive PasteAction where
  | passthrough
  | convert (url : String)
  deriving DecidableEq, Repr

/-- Outcome of the manual paste command: do nothing, insert the
clipboard text as plain text, or convert it to a card block. -/
inductive ManualPasteAction where
  | noop
  | insertPlain (text : String)
  | convert (url : String)
  deriving DecidableEq, Repr

/-- Outcome of the enhance-selection command: either no action (the
document is left unchanged) or conversion of a URL to a card block. -/
inductive EnhanceAction where
  | noAction
  | convert (url : String)
  deriving DecidableEq, Repr

/-- `manualPasteAndEnhanceURL` from `src/main.ts` lines 75-99, with the
editor and clipboard abstracted into its decision inputs: the clipboard
text and the `navigator.onLine` flag.  Empty clipboard: do nothing;
offline: plain paste; not a URL or an image URL: plain paste; otherwise
convert. -/
def manualPasteAndEnhanceURL (clipboardText : String) (onLine : Bool) :
    ManualPasteAction :=
  if clipboardText = "" then .noop
  else if !onLine then .insertPlain clipboardText
  else if !isUrl clipboardText || isImage clipboardText then
    .insertPlain clipboardText
  else .convert clipboardText

/-- `onPaste` from `src/main.ts` lines 101-133, with the event and
environment abstracted into its decision inputs.  Every early `return`
leaves the event to the default paste handler (`passthrough`); only the
final branch calls `stopPropagation`/`preventDefault` and converts. -/
def onPaste (enhanceDefaultPaste onLine clipboardDataPresent : Bool)
    (filesCount : Nat) (clipboardText : String) : PasteAction :=
  if !enhanceDefaultPaste then .passthrough
  else if !onLine then .passthrough
  else if !clipboardDataPresent then .passthrough
  else if 0 < filesCount then .passthrough
  else if clipboardText = "" then .passthrough
  else if !isUrl clipboardText || isImage clipboardText then .passthrough
  else .convert clipboardText

/-- `enhanceSelectedURL` from `src/main.ts` lines 60-73: trim the
selection (a missing selection is the empty string), convert if it is a
bare URL, else convert the extracted URL if it is a bracketed link,
else do nothing. -/
def enhanceSelectedURL (selectedText : String) : EnhanceAction :=
  let t := trimS selectedText
  if isUrl t then .convert t
  else if isLinkedUrl t then .convert (getUrlFromLink t)
  else .noAction

/-- The `LinkMetadata` record from `src/interfaces.ts` lines 1-8:
required `url` and `title`, optional `description`, `host` and `image`,
and a non-negative integer `indent` (embedded as `Nat`). -/
structure LinkMetadata where
  url : String
  title : String
  description : Option String
  host : Option String
  image : Option String
  indent : Nat
  deriving DecidableEq, Repr

/-- A record is well-formed per the data-model invariants of the spec
when its required `url` is non-empty (the `indent ≥ 0` invariant is
carried by the `Nat` type). -/
def LinkMetadata.wellFormed (m : LinkMetadata) : Prop :=
  m.url ≠ ""

instance (m : LinkMetadata) : Decidable m.wellFormed := by
  unfold LinkMetadata.wellFormed; infer_instance

/-- Modelled from the spec: the value-escaping step of the missing
`code_block_generator` module.  The spec requires escaping of any
character ambiguous with the line structure "by quoting or
backslash-escaping"; since a value occupies the whole remainder of its
line after the fixed key marker, only literal newlines (line
boundaries) need escaping, plus the backslash itself so that escaping
is injective. -/
def escapeV : List Char → List Char
  | [] => []
  | c :: t =>
    if c = '\\' then '\\' :: '\\' :: escapeV t
    else if c = '\n' then '\\' :: 'n' :: escapeV t
    else c :: escapeV t

/-- Modelled from the spec: the inverse unescaping step performed by the
missing `code_block_processor` module on each decoded value. -/
def unescapeV : List Char → List Char
  | [] => []
  | c :: t =>
    if c = '\\' then
      match t with
      | [] => ['\\']
      | d :: t2 => (if d = 'n' then '\n' else d) :: unescapeV t2
    else c :: unescapeV t

/-- The fixed indentation unit of the block format: one space per
`indent` level. -/
def spacesN : Nat → List Char
  | 0 => []
  | n + 1 => ' ' :: spacesN n

/-- Modelled from the spec: one encoded field line — `indent` units of
indentation, the key, the fixed delimiter `: `, then the escaped
value. -/
def mkLine (ind : Nat) (key : String) (v : String) : List Char :=
  spacesN ind ++ key.data ++ ':' :: ' ' :: escapeV v.data

/-- Lines of one optional field: nothing when the field is absent. -/
def optLine (ind : Nat) (key : String) : Option String → List (List Char)
  | none => []
  | some v => [mkLine ind key v]

/-- Modelled from the spec: the encoded lines of one record — one
`key: value` line per populated field, keys from the fixed vocabulary
`url`, `title`, `description`, `host`, `image`, all indented by the
record's `indent`, optional keys omitted when absent. -/
def recordLines (m : LinkMetadata) : List (List Char) :=
  mkLine m.indent "url" m.url :: mkLine m.indent "title" m.title ::
    (optLine m.indent "description" m.description ++
      (optLine m.indent "host" m.host ++ optLine m.indent "image" m.image))

/-- Lines of a whole record sequence, in order. -/
def linesOfRecords : List LinkMetadata → List (List Char)
  | [] => []
  | m :: ms => recordLines m ++ linesOfRecords ms

/-- The block-open delimiter line (the fence that
`registerMarkdownCodeBlockProcessor("cardlink", ...)` in `src/main.ts`
recognizes). -/
def openDelim : List Char :=
  "```cardlink".data

/-- The block-close delimiter line. -/
def closeDelim : List Char :=
  "```".data

/-- Join lines with single newline separators. -/
def joinLines : List (List Char) → List Char
  | [] => []
  | [l] => l
  | l :: l2 :: ls => l ++ '\n' :: joinLines (l2 :: ls)

/-- Split on newline characters; total inverse of `joinLines` on
newline-free lines. -/
def splitLines : List Char → List (List Char)
  | [] => [[]]
  | c :: t =>
    if c = '\n' then [] :: splitLines t
    else
      match splitLines t with
      | [] => [[c]]
      | l :: ls => (c :: l) :: ls

/-- Modelled from the spec: `CardBlockCodec.encode` (the missing
`code_block_generator` module): block-open delimiter, one line per
populated field of each record in order, block-close delimiter. -/
def CardBlockCodec.encode (records : List LinkMetadata) : String :=
  String.mk (joinLines (openDelim :: (linesOfRecords records ++ [closeDelim])))

/-- Count and strip the leading indentation spaces of a line. -/
def stripIndentN : List Char → Nat × List Char
  | [] => (0, [])
  | c :: t =>
    if c = ' ' then
      let p := stripIndentN t
      (p.1 + 1, p.2)
    else (0, c :: t)

/-- Modelled from the spec: parse one block line into its indentation
level, key and unescaped value.  The key is everything before the first
colon; a line that cannot be split as `key: value` is malformed
(`none`). -/
def parseLine (l : List Char) : Option (Nat × List Char × List Char) :=
  let p := stripIndentN l
  let k := p.2.takeWhile (fun c => c != ':')
  match p.2.dropWhile (fun c => c != ':') with
  | ':' :: ' ' :: v => if k = [] then none else some (p.1, k, unescapeV v)
  | _ => none

/-- Parse every line of a block body; any malformed line fails the
block. -/
def parseLines : List (List Char) → Option (List (Nat × List Char × List Char))
  | [] => some []
  | l :: t =>
    match parseLine l, parseLines t with
    | some p, some ps => some (p :: ps)
    | _, _ => none

/-- A fresh record opened by a `url` line: mandatory fields from the
line, optional fields absent, title defaulted to empty until its line
arrives. -/
def baseRec (v : List Char) (ind : Nat) : LinkMetadata :=
  ⟨String.mk v, "", none, none, none, ind⟩

/-- Modelled from the spec: group parsed `key: value` lines into
records.  A `url` line starts a new record (flushing the current one); a
known field line is accumulated onto the current record and is rejected
when no record is open (a record missing the mandatory `url` key);
unknown keys are ignored for forward compatibility; the record still
open at the end of the block is flushed. -/
def buildRecs : List (Nat × List Char × List Char) → Option LinkMetadata →
    Option (List LinkMetadata)
  | [], cur => some cur.toList
  | (n, k, v) :: t, cur =>
    if k = "url".data then
      match buildRecs t (some (baseRec v n)) with
      | some ms => some (cur.toList ++ ms)
      | none => none
    else if k = "title".data then
      match cur with
      | none => none
      | some m => buildRecs t (some { m with title := String.mk v })
    else if k = "description".data then
      match cur with
      | none => none
      | some m => buildRecs t (some { m with description := some (String.mk v) })
    else if k = "host".data then
      match cur with
      | none => none
      | some m => buildRecs t (some { m with host := some (String.mk v) })
    else if k = "image".data then
      match cur with
      | none => none
      | some m => buildRecs t (some { m with image := some (String.mk v) })
    else buildRecs t cur

/-- Modelled from the spec: `CardBlockCodec.decode` (the missing
`code_block_processor` module): recognize the block by its open and
close delimiter lines, parse each interior line as `key: value` with
its indentation level, and group the lines into records; any malformed
line or a record missing `url` rejects the block (`none`). -/
def CardBlockCodec.decode (text : String) : Option (List LinkMetadata) :=
  match splitLines text.data with
  | [] => none
  | first :: rest =>
    if first = openDelim then
      match rest.getLast? with
      | some lastLine =>
        if lastLine = closeDelim then
          match parseLines rest.dropLast with
          | some ps => buildRecs ps none
          | none => none
        else none
      | none => none
    else none

/-- The parsed form of one optional field's lines: indentation level,
key and raw value. -/
def optTriple (ind : Nat) (key : String) :
    Option String → List (Nat × List Char × List Char)
  | none => []
  | some v => [(ind, key.data, v.data)]

/-- The parsed form of one record's lines. -/
def recordTriples (m : LinkMetadata) : List (Nat × List Char × List Char) :=
  (m.indent, "url".data, m.url.data) ::
    (m.indent, "title".data, m.title.data) ::
      (optTriple m.indent "description" m.description ++
        (optTriple m.indent "host" m.host ++ optTriple m.indent "image" m.image))

/-- The parsed form of a record sequence's lines. -/
def triplesOfRecords : List LinkMetadata → List (Nat × List Char × List Char)
  | [] => []
  | m :: ms => recordTriples m ++ triplesOfRecords ms

/-- A parsed-line list that is empty or begins with a `url` key; the
shape in which `buildRecs` can flush its open record. -/
def urlStart : List (Nat × List Char × List Char) → Prop
  | [] => True
  | (_, k, _) :: _ => k = "url".data

/-- The claim's wording of a hostname label: "alphanumeric with internal
hyphens", never starting or ending with a hyphen. -/
def specLabel (lab : List Char) : Prop :=
  lab ≠ [] ∧ (∀ c ∈ lab, isAlnumB c = true ∨ c = '-') ∧
    lab.head? ≠ some '-' ∧ lab.getLast? ≠ some '-'

/-- The bare-URL grammar exactly as the claim for `isUrl` words it: a
prefix that is a case-insensitive `http://` or `https://` or a bare
`www.`, then a hostname label, a dot, and at least 2 non-whitespace
characters forming the TLD together with the path/query/fragment
remainder.  (This wording carries no restriction on hostnames beginning
with `www` after a scheme.) -/
def specBareUrl (cs : List Char) : Prop :=
  ∃ p lab rest,
    cs = p ++ (lab ++ '.' :: rest) ∧
    (ciEqB p "http://".data = true ∨ ciEqB p "https://".data = true ∨
      ciEqB p "www.".data = true) ∧
    specLabel lab ∧ 2 ≤ rest.length ∧ ∀ c ∈ rest, isJsWs c = false

/-- The bare-URL grammar amended with the one restriction the regex's
`(?:www\.|(?!www))` imposes and the claim omits: when the scheme prefix
is present, it is followed either by a literal `www.` (consumed before
the hostname label) or by a hostname that does not begin with `www`. -/
def specBareUrlAmended (cs : List Char) : Prop :=
  ∃ p lab rest,
    cs = p ++ (lab ++ '.' :: rest) ∧
    specLabel lab ∧ 2 ≤ rest.length ∧ (∀ c ∈ rest, isJsWs c = false) ∧
    (ciEqB p "www.".data = true ∨
      ∃ sch w, p = sch ++ w ∧
        (ciEqB sch "http://".data = true ∨ ciEqB sch "https://".data = true) ∧
        (ciEqB w "www.".data = true ∨
          (w = [] ∧ startsWithWwwCI (lab ++ '.' :: rest) = false)))

/-- The claim's wording for a link label: square brackets may appear
only escaped (preceded by a backslash). -/
def noUnescapedBrackets : List Char → Bool
  | [] => true
  | '\\' :: _ :: t => noUnescapedBrackets t
  | c :: t => !(c = '[' || c = ']') && noUnescapedBrackets t

/-- The bracketed-link grammar exactly as the claim for `isLinkedUrl`
words it: `[label](URL)` where the label contains no unescaped square
brackets and the URL satisfies the bare-URL grammar (the grammar the
code's URL alternation defines, `urlFullB`). -/
def specLinkedUrl (cs : List Char) : Prop :=
  ∃ lab u, cs = '[' :: (lab ++ ']' :: '(' :: (u ++ [')'])) ∧
    noUnescapedBrackets lab = true ∧ urlFullB u = true

/-! Helper lemmas. -/

theorem mk_data (s : String) : String.mk s.data = s :=
  rfl

theorem mem_of_head?_eq {l : List Char} {a : Char} (h : l.head? = some a) :
    a ∈ l := by
  cases l with
  | nil => simp at h
  | cons b t => simp at h; simp [h]

theorem mem_of_getLast?_eq {l : List Char} {a : Char} (h : l.getLast? = some a) :
    a ∈ l := by
  induction l with
  | nil => simp at h
  | cons b t ih =>
    cases t with
    | nil => simp at h; simp [h]
    | cons c t2 =>
      rw [List.getLast?_cons_cons] at h
      exact List.mem_cons_of_mem _ (ih h)

theorem exists_getLast? {l : List Char} (h : l ≠ []) :
    ∃ a, l.getLast? = some a := by
  induction l with
  | nil => exact absurd rfl h
  | cons b t ih =>
    cases t with
    | nil => exact ⟨b, rfl⟩
    | cons c t2 =>
      obtain ⟨a, ha⟩ := ih (by simp)
      exact ⟨a, by rw [List.getLast?_cons_cons]; exact ha⟩

theorem getLast?_some_decomp {l : List Char} {a : Char}
    (h : l.getLast? = some a) : l.dropLast ++ [a] = l := by
  induction l with
  | nil => simp at h
  | cons b t ih =>
    cases t with
    | nil => simp at h; simp [h]
    | cons c t2 =>
      rw [List.getLast?_cons_cons] at h
      simpa using ih h

theorem takeWhile_append_stop {p : Char → Bool} {l : List Char} {x : Char}
    {r : List Char} (hl : ∀ c ∈ l, p c = true) (hx : p x = false) :
    (l ++ x :: r).takeWhile p = l := by
  induction l with
  | nil => simp [List.takeWhile_cons, hx]
  | cons a t ih =>
    have ha : p a = true := hl a (by simp)
    simp only [List.cons_append, List.takeWhile_cons, ha, if_true]
    rw [ih fun c hc => hl c (by simp [hc])]

theorem dropWhile_append_stop {p : Char → Bool} {l : List Char} {x : Char}
    {r : List Char} (hl : ∀ c ∈ l, p c = true) (hx : p x = false) :
    (l ++ x :: r).dropWhile p = x :: r := by
  induction l with
  | nil => simp [List.dropWhile_cons, hx]
  | cons a t ih =>
    have ha : p a = true := hl a (by simp)
    simp only [List.cons_append, List.dropWhile_cons, ha, if_true]
    exact ih fun c hc => hl c (by simp [hc])

theorem escapeV_no_newline : ∀ v : List Char, '\n' ∉ escapeV v := by
  intro v
  induction v with
  | nil => simp [escapeV]
  | cons c t ih =>
    by_cases h1 : c = '\\'
    · simp [escapeV, h1, ih]
    · by_cases h2 : c = '\n'
      · simp [escapeV, h1, h2, ih]
      · simp [escapeV, h1, h2, ih]
        exact fun e => h2 e.symm

theorem unescapeV_escapeV : ∀ v : List Char, unescapeV (escapeV v) = v := by
  intro v
  induction v with
  | nil => rfl
  | cons c t ih =>
    by_cases h1 : c = '\\'
    · subst h1; simp [escapeV, unescapeV, ih]
    · by_cases h2 : c = '\n'
      · subst h2; simp [escapeV, unescapeV, h1, ih]
      · rw [show escapeV (c :: t) = c :: escapeV t from by simp [escapeV, h1, h2]]
        rw [show unescapeV (c :: escapeV t) = c :: unescapeV (escapeV t) from by
          rw [unescapeV.eq_def]; simp [h1]]
        rw [ih]

theorem spacesN_no_newline : ∀ i : Nat, '\n' ∉ spacesN i := by
  intro i
  induction i with
  | zero => simp [spacesN]
  | succ n ih => simp [spacesN, ih]

theorem mkLine_no_newline {ind : Nat} {key v : String}
    (hk : '\n' ∉ key.data) : '\n' ∉ mkLine ind key v := by
  unfold mkLine
  intro h
  rcases List.mem_append.mp h with h1 | h1
  · rcases List.mem_append.mp h1 with h2 | h2
    · exact spacesN_no_newline ind h2
    · exact hk h2
  · rcases h1 with _ | ⟨_, h3⟩
    rcases h3 with _ | ⟨_, h4⟩
    exact escapeV_no_newline _ h4

theorem recordLines_no_newline (m : LinkMetadata) :
    ∀ l ∈ recordLines m, '\n' ∉ l := by
  intro l hl
  unfold recordLines at hl
  have hopt : ∀ (key : String), '\n' ∉ key.data →
      ∀ o : Option String, ∀ l2 ∈ optLine m.indent key o, '\n' ∉ l2 := by
    intro key hkey o l2 hl2
    cases o with
    | none => simp [optLine] at hl2
    | some v =>
      simp [optLine] at hl2
      exact hl2 ▸ mkLine_no_newline hkey
  rcases hl with _ | ⟨_, hl⟩
  · exact mkLine_no_newline (by decide)
  rcases hl with _ | ⟨_, hl⟩
  · exact mkLine_no_newline (by decide)
  rcases List.mem_append.mp hl with h1 | h1
  · exact hopt "description" (by decide) m.description l h1
  rcases List.mem_append.mp h1 with h2 | h2
  · exact hopt "host" (by decide) m.host l h2
  · exact hopt "image" (by decide) m.image l h2

theorem linesOfRecords_no_newline (L : List LinkMetadata) :
    ∀ l ∈ linesOfRecords L, '\n' ∉ l := by
  induction L with
  | nil => simp [linesOfRecords]
  | cons m ms ih =>
    intro l hl
    rcases List.mem_append.mp hl with h | h
    · exact recordLines_no_newline m l h
    · exact ih l h

theorem splitLines_no_newline {l : List Char} (h : '\n' ∉ l) :
    splitLines l = [l] := by
  induction l with
  | nil => rfl
  | cons c t ih =>
    have hc : ¬c = '\n' := fun e => h (by simp [e])
    have ht : '\n' ∉ t := fun m => h (List.mem_cons_of_mem _ m)
    rw [splitLines, if_neg hc, ih ht]

theorem splitLines_append {l w : List Char} (h : '\n' ∉ l) :
    splitLines (l ++ '\n' :: w) = l :: splitLines w := by
  induction l with
  | nil => simp [splitLines]
  | cons c t ih =>
    have hc : ¬c = '\n' := fun e => h (by simp [e])
    have ht : '\n' ∉ t := fun m => h (List.mem_cons_of_mem _ m)
    rw [List.cons_append, splitLines, if_neg hc, ih ht]

theorem splitLines_joinLines :
    ∀ ls : List (List Char), ls ≠ [] → (∀ l ∈ ls, '\n' ∉ l) →
      splitLines (joinLines ls) = ls := by
  intro ls
  induction ls with
  | nil => intro h; exact absurd rfl h
  | cons l ls2 ih =>
    intro _ hnl
    cases ls2 with
    | nil => exact splitLines_no_newline (hnl l (by simp))
    | cons l2 ls3 =>
      rw [joinLines, splitLines_append (hnl l (by simp)),
        ih (by simp) fun x hx => hnl x (List.mem_cons_of_mem _ hx)]

theorem stripIndentN_spaces (i : Nat) {c : Char} (t : List Char)
    (hc : ¬c = ' ') : stripIndentN (spacesN i ++ c :: t) = (i, c :: t) := by
  induction i with
  | zero =>
    rw [spacesN, List.nil_append, stripIndentN, if_neg hc]
  | succ n ih =>
    rw [spacesN, List.cons_append, stripIndentN, if_pos rfl, ih]

theorem parseLine_mkLine (ind : Nat) (key v : String)
    (h1 : key.data ≠ [])
    (h2 : ∀ c ∈ key.data, ¬c = ':' ∧ ¬c = ' ') :
    parseLine (mkLine ind key v) = some (ind, key.data, v.data) := by
  obtain ⟨c, kt, hck⟩ : ∃ c kt, key.data = c :: kt := by
    cases hd : key.data with
    | nil => exact absurd hd h1
    | cons c kt => exact ⟨c, kt, rfl⟩
  have hmk : mkLine ind key v =
      spacesN ind ++ c :: (kt ++ ':' :: ' ' :: escapeV v.data) := by
    unfold mkLine
    rw [hck, List.append_assoc, List.cons_append]
  have hkey : ∀ x ∈ key.data, (x != ':') = true := by
    intro x hx
    simpa using (h2 x hx).1
  have hc : ¬c = ' ' := (h2 c (by rw [hck]; simp)).2
  unfold parseLine
  rw [hmk, stripIndentN_spaces ind _ hc]
  have hsplit : (c :: (kt ++ ':' :: ' ' :: escapeV v.data)) =
      key.data ++ ':' :: ' ' :: escapeV v.data := by
    rw [hck, List.cons_append]
  rw [hsplit]
  dsimp only
  rw [takeWhile_append_stop hkey (by simp),
    dropWhile_append_stop hkey (by simp)]
  simp only [if_neg h1, unescapeV_escapeV]

theorem parseLines_append {a b : List (List Char)}
    {pa pb : List (Nat × List Char × List Char)}
    (ha : parseLines a = some pa) (hb : parseLines b = some pb) :
    parseLines (a ++ b) = some (pa ++ pb) := by
  induction a generalizing pa with
  | nil =>
    rw [parseLines] at ha
    cases ha
    simpa using hb
  | cons l t ih =>
    rw [parseLines] at ha
    cases hpl : parseLine l with
    | none => rw [hpl] at ha; exact absurd ha (by simp)
    | some p =>
      rw [hpl] at ha
      cases hpt : parseLines t with
      | none => rw [hpt] at ha; exact absurd ha (by simp)
      | some ps =>
        rw [hpt] at ha
        cases ha
        rw [List.cons_append, parseLines, hpl, ih hpt]
        rfl

theorem keyCond_url : ("url".data ≠ []) ∧ ∀ c ∈ "url".data, ¬c = ':' ∧ ¬c = ' ' := by
  decide

theorem keyCond_title :
    ("title".data ≠ []) ∧ ∀ c ∈ "title".data, ¬c = ':' ∧ ¬c = ' ' := by
  decide

theorem keyCond_description :
    ("description".data ≠ []) ∧ ∀ c ∈ "description".data, ¬c = ':' ∧ ¬c = ' ' := by
  decide

theorem keyCond_host :
    ("host".data ≠ []) ∧ ∀ c ∈ "host".data, ¬c = ':' ∧ ¬c = ' ' := by
  decide

theorem keyCond_image :
    ("image".data ≠ []) ∧ ∀ c ∈ "image".data, ¬c = ':' ∧ ¬c = ' ' := by
  decide

theorem parseLines_optLine (ind : Nat) (key : String) (o : Option String)
    (h1 : key.data ≠ []) (h2 : ∀ c ∈ key.data, ¬c = ':' ∧ ¬c = ' ') :
    parseLines (optLine ind key o) = some (optTriple ind key o) := by
  cases o with
  | none => rfl
  | some v =>
    rw [optLine, optTriple, parseLines, parseLine_mkLine ind key v h1 h2,
      parseLines]

theorem parseLines_record (m : LinkMetadata) :
    parseLines (recordLines m) = some (recordTriples m) := by
  have hd := parseLines_optLine m.indent "description" m.description
    keyCond_description.1 keyCond_description.2
  have hh := parseLines_optLine m.indent "host" m.host
    keyCond_host.1 keyCond_host.2
  have hi := parseLines_optLine m.indent "image" m.image
    keyCond_image.1 keyCond_image.2
  have hopts := parseLines_append hh hi
  have hall := parseLines_append hd hopts
  rw [recordLines, recordTriples, parseLines,
    parseLine_mkLine m.indent "url" m.url keyCond_url.1 keyCond_url.2,
    parseLines, parseLine_mkLine m.indent "title" m.title keyCond_title.1
      keyCond_title.2, hall]

theorem parseLines_records (L : List LinkMetadata) :
    parseLines (linesOfRecords L) = some (triplesOfRecords L) := by
  induction L with
  | nil => rfl
  | cons m ms ih =>
    rw [linesOfRecords, triplesOfRecords]
    exact parseLines_append (parseLines_record m) ih

theorem buildRecs_flush (t : List (Nat × List Char × List Char))
    (m : LinkMetadata) (h : urlStart t) :
    buildRecs t (some m) = (buildRecs t none).map (m :: ·) := by
  cases t with
  | nil => rfl
  | cons hd tl =>
    obtain ⟨n, k, v⟩ := hd
    have hk : k = "url".data := h
    subst hk
    rw [buildRecs, buildRecs, if_pos rfl, if_pos rfl]
    cases buildRecs tl (some (baseRec v n)) <;> rfl

theorem buildRecs_step_url (n : Nat) (v : List Char)
    (t : List (Nat × List Char × List Char)) :
    buildRecs ((n, ['u', 'r', 'l'], v) :: t) none =
      buildRecs t (some (baseRec v n)) := by
  rw [buildRecs, if_pos (by decide)]
  cases buildRecs t (some (baseRec v n)) <;> rfl

theorem buildRecs_step_title (n : Nat) (v : List Char)
    (t : List (Nat × List Char × List Char)) (rec : LinkMetadata) :
    buildRecs ((n, ['t', 'i', 't', 'l', 'e'], v) :: t) (some rec) =
      buildRecs t (some ⟨rec.url, String.mk v, rec.description, rec.host,
        rec.image, rec.indent⟩) := by
  rw [buildRecs, if_neg (by decide), if_pos (by decide)]

theorem buildRecs_step_desc (n : Nat) (v : List Char)
    (t : List (Nat × List Char × List Char)) (rec : LinkMetadata) :
    buildRecs ((n, ['d', 'e', 's', 'c', 'r', 'i', 'p', 't', 'i', 'o', 'n'], v)
        :: t) (some rec) =
      buildRecs t (some ⟨rec.url, rec.title, some (String.mk v), rec.host,
        rec.image, rec.indent⟩) := by
  rw [buildRecs, if_neg (by decide), if_neg (by decide), if_pos (by decide)]

theorem buildRecs_step_host (n : Nat) (v : List Char)
    (t : List (Nat × List Char × List Char)) (rec : LinkMetadata) :
    buildRecs ((n, ['h', 'o', 's', 't'], v) :: t) (some rec) =
      buildRecs t (some ⟨rec.url, rec.title, rec.description,
        some (String.mk v), rec.image, rec.indent⟩) := by
  rw [buildRecs, if_neg (by decide), if_neg (by decide), if_neg (by decide),
    if_pos (by decide)]

theorem buildRecs_step_image (n : Nat) (v : List Char)
    (t : List (Nat × List Char × List Char)) (rec : LinkMetadata) :
    buildRecs ((n, ['i', 'm', 'a', 'g', 'e'], v) :: t) (some rec) =
      buildRecs t (some ⟨rec.url, rec.title, rec.description, rec.host,
        some (String.mk v), rec.indent⟩) := by
  rw [buildRecs, if_neg (by decide), if_neg (by decide), if_neg (by decide),
    if_neg (by decide), if_pos (by decide)]

theorem buildRecs_record (m : LinkMetadata)
    (rest : List (Nat × List Char × List Char)) (h : urlStart rest) :
    buildRecs (recordTriples m ++ rest) none =
      (buildRecs rest none).map (m :: ·) := by
  obtain ⟨u, ti, de, ho, im, ind⟩ := m
  have hflush := buildRecs_flush rest ⟨u, ti, de, ho, im, ind⟩ h
  cases de <;> cases ho <;> cases im <;>
    simp only [recordTriples, optTriple, List.cons_append, List.nil_append,
      List.append_assoc, buildRecs_step_url, buildRecs_step_title,
      buildRecs_step_desc, buildRecs_step_host, buildRecs_step_image,
      baseRec, mk_data] <;>
    exact hflush

theorem urlStart_triples (L : List LinkMetadata) :
    urlStart (triplesOfRecords L) := by
  cases L with
  | nil => trivial
  | cons m ms =>
    rw [triplesOfRecords, recordTriples]
    exact rfl

theorem buildRecs_triples (L : List LinkMetadata) :
    buildRecs (triplesOfRecords L) none = some L := by
  induction L with
  | nil => rfl
  | cons m ms ih =>
    rw [triplesOfRecords, buildRecs_record m _ (urlStart_triples ms), ih]
    rfl

/-! Claim theorems. -/

/-- C1: for every list of well-formed `LinkMetadata` records (non-empty
`url`, required `title`, optional `description`/`host`/`image`,
non-negative `indent`), decoding the text produced by
`CardBlockCodec.encode` yields exactly the original records,
field-for-field, including every `indent` and the absence of every
omitted optional field. -/
theorem C1_codec_roundtrip (L : List LinkMetadata)
    (hwf : ∀ m ∈ L, m.wellFormed) :
    CardBlockCodec.decode (CardBlockCodec.encode L) = some L := by
  have hlines : ∀ l ∈ openDelim :: (linesOfRecords L ++ [closeDelim]),
      '\n' ∉ l := by
    intro l hl
    rcases hl with _ | ⟨_, hl⟩
    · decide
    rcases List.mem_append.mp hl with h1 | h1
    · exact linesOfRecords_no_newline L l h1
    · rcases h1 with _ | ⟨_, h1⟩
      · decide
      · cases h1
  unfold CardBlockCodec.encode CardBlockCodec.decode
  rw [show (String.mk (joinLines (openDelim ::
      (linesOfRecords L ++ [closeDelim])))).data =
      joinLines (openDelim :: (linesOfRecords L ++ [closeDelim])) from rfl]
  rw [splitLines_joinLines _ (by simp) hlines]
  dsimp only
  rw [if_pos rfl, List.getLast?_concat]
  dsimp only
  rw [if_pos rfl, List.dropLast_concat, parseLines_records]
  dsimp only
  rw [buildRecs_triples]

/-- Witness for C1: the round trip evaluated at a concrete two-record
list with mixed optional fields and differing indents. -/
theorem C1_codec_roundtrip_witness :
    (∀ m ∈ ([⟨"https://a.bc", "T: x\ny", some "d", none, some "i", 0⟩,
        ⟨"https://b.cd", "b", none, some "b.cd", none, 2⟩] :
        List LinkMetadata), m.wellFormed) ∧
      CardBlockCodec.decode (CardBlockCodec.encode
        [⟨"https://a.bc", "T: x\ny", some "d", none, some "i", 0⟩,
          ⟨"https://b.cd", "b", none, some "b.cd", none, 2⟩]) =
        some [⟨"https://a.bc", "T: x\ny", some "d", none, some "i", 0⟩,
          ⟨"https://b.cd", "b", none, some "b.cd", none, 2⟩] :=
  ⟨by decide, C1_codec_roundtrip _ (by decide)⟩

/-- C8: the classification operations `isUrl`, `isLinkedUrl` and
`isImage` are total: every input string receives a defined boolean
answer (in this embedding they are total `Bool`-valued functions, so no
error value exists). -/
theorem C8_classification_total (s : String) :
    (isUrl s = true ∨ isUrl s = false) ∧
      (isLinkedUrl s = true ∨ isLinkedUrl s = false) ∧
      (isImage s = true ∨ isImage s = false) := by
  have tot : ∀ b : Bool, b = true ∨ b = false := by
    intro b
    cases b
    · exact Or.inr rfl
    · exact Or.inl rfl
  exact ⟨tot _, tot _, tot _⟩

/-- C9: when the trimmed selection is neither a bare URL nor a bracketed
link, `enhanceSelectedURL` performs no conversion and raises no
failure: its outcome is `noAction`, leaving the document unchanged. -/
theorem C9_nonmatch_noop (s : String)
    (h1 : isUrl (trimS s) = false) (h2 : isLinkedUrl (trimS s) = false) :
    enhanceSelectedURL s = EnhanceAction.noAction := by
  unfold enhanceSelectedURL
  dsimp only
  rw [h1, h2]
  rfl

/-- Witness for C9 at a concrete non-matching selection. -/
theorem C9_nonmatch_noop_witness :
    isUrl (trimS "plain text") = false ∧
      isLinkedUrl (trimS "plain text") = false ∧
      enhanceSelectedURL "plain text" = EnhanceAction.noAction :=
  ⟨by decide, by decide, C9_nonmatch_noop _ (by decide) (by decide)⟩

/-- C10: on any input the bracketed-link pattern does not match,
`getUrlFromLink` returns the empty string (never an undefined value,
and no exception exists in this embedding). -/
theorem C10_getUrl_nonmatch_empty (s : String)
    (h : parseLinkB s.data = none) : getUrlFromLink s = "" := by
  unfold getUrlFromLink
  rw [h]

/-- Witness for C10 at a concrete non-matching input. -/
theorem C10_getUrl_nonmatch_empty_witness :
    parseLinkB "not a link".data = none ∧ getUrlFromLink "not a link" = "" :=
  ⟨by decide, C10_getUrl_nonmatch_empty _ (by decide)⟩

/-- C4: a non-empty pasted text classified as both a URL and an image is
inserted unchanged as plain text and never converted to a card block:
the manual paste command inserts it itself, and the `editor-paste`
handler passes the event through to the host's default paste (which
inserts the clipboard text unchanged), in every environment state. -/
theorem C4_image_url_paste_plain (ct : String) (onLine edp cdp : Bool)
    (files : Nat) (hne : ¬ct = "") (hu : isUrl ct = true)
    (hi : isImage ct = true) :
    manualPasteAndEnhanceURL ct onLine = ManualPasteAction.insertPlain ct ∧
      onPaste edp onLine cdp files ct = PasteAction.passthrough := by
  constructor
  · unfold manualPasteAndEnhanceURL
    rw [if_neg hne, hi]
    cases onLine <;> simp
  · unfold onPaste
    rw [hi]
    cases edp <;> cases onLine <;> cases cdp <;> cases files <;>
      simp [hne]

/-- Witness for C4 at a concrete image URL. -/
theorem C4_image_url_paste_plain_witness :
    (¬"https://example.com/photo.JPG" = "" ∧
        isUrl "https://example.com/photo.JPG" = true ∧
        isImage "https://example.com/photo.JPG" = true) ∧
      manualPasteAndEnhanceURL "https://example.com/photo.JPG" true =
        ManualPasteAction.insertPlain "https://example.com/photo.JPG" ∧
      onPaste true true true 0 "https://example.com/photo.JPG" =
        PasteAction.passthrough :=
  ⟨⟨by decide, by decide, by decide⟩,
    C4_image_url_paste_plain "https://example.com/photo.JPG" true true true 0
      (by decide) (by decide) (by decide)⟩

theorem imageMatchHere_iff (suf : List Char) :
    imageMatchHere suf = true ↔
      ∃ e ∈ imageExtList, ∃ rest, suf = '.' :: rest ∧
        ciEqB rest e.data = true := by
  constructor
  · intro h
    unfold imageMatchHere at h
    split at h
    · next rest =>
      obtain ⟨e, he, hce⟩ := List.any_eq_true.mp h
      exact ⟨e, he, rest, rfl, hce⟩
    · exact absurd h (by simp)
  · rintro ⟨e, he, rest, hsuf, hce⟩
    subst hsuf
    unfold imageMatchHere
    exact List.any_eq_true.mpr ⟨e, he, hce⟩

theorem imageSearch_iff (cs : List Char) :
    imageSearch cs = true ↔
      ∃ pre suf, cs = pre ++ suf ∧ imageMatchHere suf = true := by
  induction cs with
  | nil =>
    constructor
    · intro h
      exact ⟨[], [], rfl, h⟩
    · rintro ⟨pre, suf, hcs, hm⟩
      obtain ⟨hp, hs⟩ := List.append_eq_nil.mp hcs.symm
      subst hp
      subst hs
      exact hm
  | cons c t ih =>
    rw [imageSearch]
    constructor
    · intro h
      rw [Bool.or_eq_true] at h
      rcases h with h1 | h2
      · exact ⟨[], c :: t, rfl, h1⟩
      · obtain ⟨pre, suf, h1, h2'⟩ := ih.mp h2
        exact ⟨c :: pre, suf, by rw [List.cons_append, ← h1], h2'⟩
    · rintro ⟨pre, suf, hcs, hm⟩
      rw [Bool.or_eq_true]
      cases pre with
      | nil =>
        rw [List.nil_append] at hcs
        exact Or.inl (by rw [hcs]; exact hm)
      | cons p pt =>
        rw [List.cons_append] at hcs
        injection hcs with h1 h2
        exact Or.inr (ih.mpr ⟨pt, suf, h2, hm⟩)

/-- C3: `isImage s` is true iff `s` ends, case-insensitively, with a dot
followed by one of exactly the extensions gif, jpg, jpeg, tif, tiff,
png, webp, bmp, tga, psd, ai (so no extension outside the fixed list is
accepted); in particular it accepts the uppercase
`https://example.com/photo.JPG`. -/
theorem C3_isImage_iff :
    (∀ s : String, isImage s = true ↔
      ∃ e ∈ imageExtList, ∃ pre rest, s.data = pre ++ '.' :: rest ∧
        ciEqB rest e.data = true) ∧
      isImage "https://example.com/photo.JPG" = true := by
  constructor
  · intro s
    unfold isImage
    rw [imageSearch_iff]
    constructor
    · rintro ⟨pre, suf, hs, hm⟩
      obtain ⟨e, he, rest, hsuf, hce⟩ := (imageMatchHere_iff suf).mp hm
      exact ⟨e, he, pre, rest, by rw [hs, hsuf], hce⟩
    · rintro ⟨e, he, pre, rest, hs, hce⟩
      exact ⟨pre, '.' :: rest, hs,
        (imageMatchHere_iff _).mpr ⟨e, he, rest, rfl, hce⟩⟩
  · decide

theorem parseLinkB_encode {lab u : List Char}
    (hlab : ∀ c ∈ lab, ¬(c = '[' ∨ c = ']')) (hurl : urlFullB u = true) :
    parseLinkB ('[' :: (lab ++ ']' :: '(' :: (u ++ [')']))) = some (lab, u) := by
  have hpred : ∀ c ∈ lab, (!(c = '[' || c = ']')) = true := by
    intro c hc
    have h := hlab c hc
    simpa using h
  unfold parseLinkB
  dsimp only
  rw [if_pos rfl, dropWhile_append_stop hpred (by simp)]
  dsimp only
  rw [if_pos ⟨rfl, rfl⟩, List.getLast?_concat]
  dsimp only
  rw [if_pos ⟨rfl, by rw [List.dropLast_concat]; exact hurl⟩,
    takeWhile_append_stop hpred (by simp), List.dropLast_concat]

theorem parseLinkB_some {cs lab u : List Char}
    (h : parseLinkB cs = some (lab, u)) :
    cs = '[' :: (lab ++ ']' :: '(' :: (u ++ [')'])) ∧
      (∀ c ∈ lab, ¬(c = '[' ∨ c = ']')) ∧ urlFullB u = true := by
  unfold parseLinkB at h
  split at h
  next => exact absurd h (by simp)
  next c0 t =>
    split at h
    case isFalse => exact absurd h (by simp)
    case isTrue hc0 =>
      split at h
      case h_2 => exact absurd h (by simp)
      case h_1 d1 d2 r hdw =>
        split at h
        case isFalse => exact absurd h (by simp)
        case isTrue hd =>
          split at h
          case h_2 => exact absurd h (by simp)
          case h_1 dl hlast =>
            split at h
            case isFalse => exact absurd h (by simp)
            case isTrue hcond =>
              obtain ⟨hd1, hd2⟩ := hd
              obtain ⟨hdl, hurl⟩ := hcond
              injection h with hpair
              injection hpair with hl hr
              subst hc0
              subst hd1
              subst hd2
              subst hdl
              subst hl
              subst hr
              refine ⟨?_, ?_, hurl⟩
              · have ht := List.takeWhile_append_dropWhile
                  (fun c => !(c = '[' || c = ']')) t
                rw [hdw] at ht
                rw [getLast?_some_decomp hlast, ht]
              · intro c hc
                have hp := List.mem_takeWhile_imp hc
                simpa using hp

/-- C6: on every string of the bracketed-link shape `[label](URL)` (the
label free of square brackets, the URL matching the bare-URL
alternation), `getUrlFromLink` returns exactly the parenthesized URL
component. -/
theorem C6_extract_url (lab u : String)
    (hlab : ∀ c ∈ lab.data, ¬(c = '[' ∨ c = ']'))
    (hurl : urlFullB u.data = true) :
    getUrlFromLink ("[" ++ lab ++ "](" ++ u ++ ")") = u := by
  have hdata : ("[" ++ lab ++ "](" ++ u ++ ")").data =
      '[' :: (lab.data ++ ']' :: '(' :: (u.data ++ [')'])) := by
    simp [String.data_append]
  unfold getUrlFromLink
  rw [hdata, parseLinkB_encode hlab hurl]

/-- Witness for C6: the claim's own example
`[Example](https://example.com)` extracts `https://example.com`. -/
theorem C6_extract_url_witness :
    (∀ c ∈ "Example".data, ¬(c = '[' ∨ c = ']')) ∧
      urlFullB "https://example.com".data = true ∧
      getUrlFromLink "[Example](https://example.com)" = "https://example.com" :=
  ⟨by decide, by decide,
    C6_extract_url "Example" "https://example.com" (by decide) (by decide)⟩

/-- C5 (counterexample): the claim — `isLinkedUrl` is true iff the
entire trimmed string is `[label](URL)` where the label contains no
unescaped square brackets and the URL matches the bare-URL grammar —
fails at the concrete input whose label is `a\[b`: that label contains
only an escaped bracket, yet the `linkRegex` label class admits no
bracket at all, so `isLinkedUrl` is false while the claim's grammar
accepts the string. -/
theorem C5_counterexample :
    ¬(isLinkedUrl "[a\\[b](https://example.com)" = true ↔
      specLinkedUrl (trimJS "[a\\[b](https://example.com)".data)) := by
  intro hiff
  have h2 : specLinkedUrl (trimJS "[a\\[b](https://example.com)".data) :=
    ⟨"a\\[b".data, "https://example.com".data, by decide, by decide, by decide⟩
  exact absurd (hiff.mpr h2) (by decide)

/-- C5 (amended): `isLinkedUrl s` is true iff the entire trimmed string
is `[label](URL)` where the label contains no square brackets at all
(escaped or not) and the URL satisfies the bare-URL alternation of the
regex. -/
theorem C5_amended_iff (s : String) :
    isLinkedUrl s = true ↔
      ∃ lab u, trimJS s.data = '[' :: (lab ++ ']' :: '(' :: (u ++ [')'])) ∧
        (∀ c ∈ lab, ¬(c = '[' ∨ c = ']')) ∧ urlFullB u = true := by
  unfold isLinkedUrl
  constructor
  · intro h
    obtain ⟨⟨lab, u⟩, hsome⟩ := Option.isSome_iff_exists.mp h
    obtain ⟨hcs, hlab, hurl⟩ := parseLinkB_some hsome
    exact ⟨lab, u, hcs, hlab, hurl⟩
  · rintro ⟨lab, u, hcs, hlab, hurl⟩
    rw [hcs, parseLinkB_encode hlab hurl]
    rfl

theorem charCI_symm (a b : Char) : charCI a b = charCI b a := by
  unfold charCI
  simp [eq_comm]

theorem stripCI_some_decomp : ∀ {pat cs r : List Char},
    stripCI pat cs = some r → ∃ p, cs = p ++ r ∧ ciEqB p pat = true := by
  intro pat
  induction pat with
  | nil =>
    intro cs r h
    rw [stripCI] at h
    injection h with h'
    subst h'
    exact ⟨[], rfl, rfl⟩
  | cons a ps ih =>
    intro cs r h
    cases cs with
    | nil => exact absurd h (by simp [stripCI])
    | cons c ct =>
      rw [stripCI] at h
      split at h
      case isTrue hca =>
        obtain ⟨p, hp, hci⟩ := ih h
        refine ⟨c :: p, by rw [List.cons_append, hp], ?_⟩
        rw [ciEqB, Bool.and_eq_true]
        exact ⟨by rw [charCI_symm]; exact hca, hci⟩
      case isFalse => exact absurd h (by simp)

theorem stripCI_of_ciEqB : ∀ {pat p : List Char} (r : List Char),
    ciEqB p pat = true → stripCI pat (p ++ r) = some r := by
  intro pat
  induction pat with
  | nil =>
    intro p r h
    cases p with
    | nil => rfl
    | cons c ct => exact Bool.noConfusion h
  | cons a ps ih =>
    intro p r h
    cases p with
    | nil => exact Bool.noConfusion h
    | cons c ct =>
      rw [ciEqB, Bool.and_eq_true] at h
      obtain ⟨h1, h2⟩ := h
      rw [List.cons_append, stripCI, if_pos (by rw [charCI_symm]; exact h1)]
      exact ih r h2

theorem stripScheme_decomp {cs r : List Char} (h : stripScheme cs = some r) :
    ∃ p, cs = p ++ r := by
  unfold stripScheme at h
  split at h
  next hstrip =>
    injection h with h'
    subst h'
    obtain ⟨p, hp, _⟩ := stripCI_some_decomp hstrip
    exact ⟨p, hp⟩
  next =>
    obtain ⟨p, hp, _⟩ := stripCI_some_decomp h
    exact ⟨p, hp⟩

theorem stripUrlHead_decomp {cs r : List Char}
    (h : stripUrlHead cs = some r) : ∃ p, cs = p ++ r := by
  unfold stripUrlHead at h
  split at h
  next r1 hs =>
    obtain ⟨p1, hp1⟩ := stripScheme_decomp hs
    split at h
    next hw =>
      injection h with h'
      subst h'
      obtain ⟨p2, hp2, _⟩ := stripCI_some_decomp hw
      exact ⟨p1 ++ p2, by rw [hp1, hp2, List.append_assoc]⟩
    next =>
      split at h
      case isTrue => exact absurd h (by simp)
      case isFalse =>
        injection h with h'
        subst h'
        exact ⟨p1, hp1⟩
  next =>
    obtain ⟨p, hp, _⟩ := stripCI_some_decomp h
    exact ⟨p, hp⟩

theorem urlFullB_matchAt {cs : List Char} (h : urlFullB cs = true) :
    matchAt cs = some cs.length := by
  unfold urlFullB at h
  split at h
  next => exact Bool.noConfusion h
  next rest hstrip =>
    unfold labelDotRestFull at h
    rw [Bool.and_eq_true] at h
    obtain ⟨hok, htail⟩ := h
    split at htail
    case h_1 d r2 hdw =>
      rw [Bool.and_eq_true, Bool.and_eq_true] at htail
      obtain ⟨⟨hd, hlen⟩, hall⟩ := htail
      rw [decide_eq_true_eq] at hd hlen
      subst hd
      have hnws : r2.takeWhile (fun c => !isJsWs c) = r2 :=
        List.takeWhile_eq_self_iff.mpr (List.all_eq_true.mp hall)
      unfold matchAt
      rw [hstrip]
      dsimp only
      rw [if_pos hok, hdw]
      dsimp only
      rw [if_pos rfl, hnws, if_pos hlen]
      obtain ⟨p, hp⟩ := stripUrlHead_decomp hstrip
      have ht := List.takeWhile_append_dropWhile isLabelChar rest
      rw [hdw] at ht
      have hre : (rest.takeWhile isLabelChar).length + (1 + r2.length) =
          rest.length := by
        have h2 := congrArg List.length ht
        simp [List.length_append] at h2
        omega
      subst hp
      rw [List.length_append]
      congr 1
      omega
    case h_2 => exact Bool.noConfusion htail

/-- C7: the anchored predicate and the unanchored line-scan variant
recognize the same bare-URL grammar: scanning a string the anchored
predicate accepts (its trimmed form) yields exactly that string as the
single match, and on `"see https://example.com"` the anchored predicate
is false while the line scan finds exactly the one embedded URL. -/
theorem C7_line_scan_agrees :
    (∀ s : String, isUrl s = true → lineScan (trimS s) = [trimS s]) ∧
      isUrl "see https://example.com" = false ∧
      lineScan "see https://example.com" = ["https://example.com"] := by
  refine ⟨?_, by decide, by decide⟩
  intro s h
  unfold isUrl at h
  have hm := urlFullB_matchAt h
  unfold lineScan trimS
  rw [show (String.mk (trimJS s.data)).data = trimJS s.data from rfl]
  cases hcs : trimJS s.data with
  | nil =>
    rw [hcs] at hm
    exact absurd hm (by decide)
  | cons c t =>
    rw [hcs] at hm
    rw [show (c :: t).length = t.length + 1 from rfl, lineScanGo, hm]
    dsimp only
    rw [List.take_length, List.drop_length]
    have hgo : lineScanGo t.length [] = [] := by
      cases t.length <;> rfl
    rw [hgo]
    rfl

/-- Witness for C7's universally quantified first conjunct at a concrete
accepted URL. -/
theorem C7_line_scan_agrees_witness :
    isUrl "https://example.com/path" = true ∧
      lineScan (trimS "https://example.com/path") =
        [trimS "https://example.com/path"] :=
  ⟨by decide, C7_line_scan_agrees.1 "https://example.com/path" (by decide)⟩

theorem ciEqB_cons_decomp {p : List Char} {b : Char} {pat : List Char}
    (h : ciEqB p (b :: pat) = true) :
    ∃ c p', p = c :: p' ∧ charCI c b = true ∧ ciEqB p' pat = true := by
  cases p with
  | nil => exact Bool.noConfusion h
  | cons c p' =>
    rw [ciEqB, Bool.and_eq_true] at h
    exact ⟨c, p', rfl, h.1, h.2⟩

theorem charCI_trans_ne {a b c : Char} (h1 : charCI c b = true)
    (h2 : charCI a b = false) : charCI a c = false := by
  unfold charCI at *
  rw [decide_eq_true_eq] at h1
  rw [h1]
  exact h2

theorem stripCI_append_pat : ∀ (p1 p2 cs : List Char),
    stripCI (p1 ++ p2) cs = (stripCI p1 cs).bind (stripCI p2) := by
  intro p1
  induction p1 with
  | nil => intro p2 cs; rfl
  | cons a ps ih =>
    intro p2 cs
    cases cs with
    | nil => rfl
    | cons c ct =>
      rw [List.cons_append, stripCI, stripCI]
      by_cases hca : charCI a c = true
      · rw [if_pos hca, if_pos hca]
        exact ih p2 ct
      · rw [if_neg hca, if_neg hca]
        rfl

theorem stripScheme_none_of_w {c : Char} {t : List Char}
    (hc : charCI c 'w' = true) : stripScheme (c :: t) = none := by
  have h1 : charCI 'h' c = false := charCI_trans_ne hc (by decide)
  have h2 : ¬charCI 'h' c = true := by simp [h1]
  unfold stripScheme
  rw [show stripCI ['h', 't', 't', 'p', ':', '/', '/'] (c :: t) = none from by
    rw [stripCI, if_neg h2]]
  rw [stripCI, if_neg h2]

theorem stripHttp_none_of_https {sch r : List Char}
    (h : ciEqB sch ['h', 't', 't', 'p', 's', ':', '/', '/'] = true) :
    stripCI ['h', 't', 't', 'p', ':', '/', '/'] (sch ++ r) = none := by
  obtain ⟨c0, s0, he0, hc0, h⟩ := ciEqB_cons_decomp h
  obtain ⟨c1, s1, he1, hc1, h⟩ := ciEqB_cons_decomp h
  obtain ⟨c2, s2, he2, hc2, h⟩ := ciEqB_cons_decomp h
  obtain ⟨c3, s3, he3, hc3, h⟩ := ciEqB_cons_decomp h
  obtain ⟨c4, s4, he4, hc4, h⟩ := ciEqB_cons_decomp h
  subst he4
  subst he3
  subst he2
  subst he1
  subst he0
  rw [List.cons_append, stripCI, if_pos (by rw [charCI_symm]; exact hc0)]
  rw [List.cons_append, stripCI, if_pos (by rw [charCI_symm]; exact hc1)]
  rw [List.cons_append, stripCI, if_pos (by rw [charCI_symm]; exact hc2)]
  rw [List.cons_append, stripCI, if_pos (by rw [charCI_symm]; exact hc3)]
  rw [List.cons_append, stripCI,
    if_neg (by simp [charCI_trans_ne hc4 (by decide : charCI ':' 's' = false)])]

theorem specLabel_of_labelOk {run : List Char}
    (hmem : ∀ c ∈ run, isLabelChar c = true) (hok : labelOkB run = true) :
    specLabel run := by
  unfold labelOkB at hok
  split at hok
  case h_1 a b hh hl =>
    rw [Bool.and_eq_true] at hok
    obtain ⟨ha, hb⟩ := hok
    refine ⟨?_, ?_, ?_, ?_⟩
    · intro he
      subst he
      exact Option.noConfusion hh
    · intro c hc
      have hl2 := hmem c hc
      unfold isLabelChar at hl2
      rw [Bool.or_eq_true] at hl2
      rcases hl2 with h1 | h1
      · exact Or.inl h1
      · exact Or.inr (by rwa [decide_eq_true_eq] at h1)
    · intro hhd
      rw [hh] at hhd
      injection hhd with he
      subst he
      exact absurd ha (by decide)
    · intro hhd
      rw [hl] at hhd
      injection hhd with he
      subst he
      exact absurd hb (by decide)
  case h_2 => exact Bool.noConfusion hok

theorem labelOk_of_specLabel {run : List Char} (h : specLabel run) :
    labelOkB run = true ∧ ∀ c ∈ run, isLabelChar c = true := by
  obtain ⟨hne, hmem, hhd, hlast⟩ := h
  have hlc : ∀ c ∈ run, isLabelChar c = true := by
    intro c hc
    rcases hmem c hc with h1 | h1
    · unfold isLabelChar
      rw [Bool.or_eq_true]
      exact Or.inl h1
    · unfold isLabelChar
      rw [Bool.or_eq_true]
      exact Or.inr (by rw [h1]; decide)
  refine ⟨?_, hlc⟩
  obtain ⟨a, ha⟩ : ∃ a, run.head? = some a := by
    cases run with
    | nil => exact absurd rfl hne
    | cons c t => exact ⟨c, rfl⟩
  obtain ⟨b, hb⟩ := exists_getLast? hne
  have haa : isAlnumB a = true := by
    rcases hmem a (mem_of_head?_eq ha) with h1 | h1
    · exact h1
    · rw [h1] at ha
      exact absurd ha hhd
  have hbb : isAlnumB b = true := by
    rcases hmem b (mem_of_getLast?_eq hb) with h1 | h1
    · exact h1
    · rw [h1] at hb
      exact absurd hb hlast
  unfold labelOkB
  rw [ha, hb]
  dsimp only
  rw [haa, hbb]
  rfl

theorem stripUrlHead_some_chars {cs r : List Char}
    (h : stripUrlHead cs = some r) :
    ∃ p, cs = p ++ r ∧
      (ciEqB p "www.".data = true ∨
        ∃ sch w, p = sch ++ w ∧
          (ciEqB sch "http://".data = true ∨
            ciEqB sch "https://".data = true) ∧
          (ciEqB w "www.".data = true ∨
            (w = [] ∧ startsWithWwwCI r = false))) := by
  unfold stripUrlHead at h
  split at h
  next r1 hs =>
    have hsch : ∃ sch, cs = sch ++ r1 ∧
        (ciEqB sch "http://".data = true ∨
          ciEqB sch "https://".data = true) := by
      unfold stripScheme at hs
      split at hs
      next hh =>
        injection hs with h'
        subst h'
        obtain ⟨p, hp, hci⟩ := stripCI_some_decomp hh
        exact ⟨p, hp, Or.inl hci⟩
      next =>
        obtain ⟨p, hp, hci⟩ := stripCI_some_decomp hs
        exact ⟨p, hp, Or.inr hci⟩
    obtain ⟨sch, hsc, hschor⟩ := hsch
    split at h
    next hw =>
      injection h with h'
      subst h'
      obtain ⟨w, hw1, hciw⟩ := stripCI_some_decomp hw
      refine ⟨sch ++ w, by rw [hsc, hw1, List.append_assoc], ?_⟩
      exact Or.inr ⟨sch, w, rfl, hschor, Or.inl hciw⟩
    next =>
      split at h
      case isTrue => exact absurd h (by simp)
      case isFalse hnw =>
        injection h with h'
        subst h'
        refine ⟨sch, hsc, ?_⟩
        exact Or.inr ⟨sch, [], by rw [List.append_nil], hschor,
          Or.inr ⟨rfl, by simpa using hnw⟩⟩
  next =>
    obtain ⟨p, hp, hci⟩ := stripCI_some_decomp h
    exact ⟨p, hp, Or.inl hci⟩

theorem stripUrlHead_of_parts {p r : List Char}
    (hor : ciEqB p "www.".data = true ∨
      ∃ sch w, p = sch ++ w ∧
        (ciEqB sch "http://".data = true ∨
          ciEqB sch "https://".data = true) ∧
        (ciEqB w "www.".data = true ∨
          (w = [] ∧ startsWithWwwCI r = false))) :
    stripUrlHead (p ++ r) = some r := by
  rcases hor with hw | ⟨sch, w, hp, hsch, hwor⟩
  · obtain ⟨c, p', he, hc, _⟩ := ciEqB_cons_decomp hw
    subst he
    unfold stripUrlHead
    rw [show (c :: p') ++ r = c :: (p' ++ r) from rfl,
      stripScheme_none_of_w hc]
    exact stripCI_of_ciEqB r hw
  · subst hp
    have hscheme : stripScheme ((sch ++ w) ++ r) = some (w ++ r) := by
      unfold stripScheme
      rcases hsch with h1 | h1
      · rw [List.append_assoc, stripCI_of_ciEqB (w ++ r) h1]
      · rw [List.append_assoc, stripHttp_none_of_https h1,
          stripCI_of_ciEqB (w ++ r) h1]
    unfold stripUrlHead
    rw [hscheme]
    dsimp only [List.nil_append]
    rcases hwor with h2 | ⟨h2, h3⟩
    · have h2' : ciEqB w ['w', 'w', 'w', '.'] = true := h2
      rw [stripCI_of_ciEqB r h2']
    · subst h2
      rw [List.nil_append]
      have hnone : stripCI ['w', 'w', 'w', '.'] r = none := by
        have hww : stripCI ['w', 'w', 'w'] r = none := by
          unfold startsWithWwwCI at h3
          cases hx : stripCI ['w', 'w', 'w'] r with
          | none => rfl
          | some v => rw [hx] at h3; exact Bool.noConfusion h3
        rw [show (['w', 'w', 'w', '.'] : List Char) =
          ['w', 'w', 'w'] ++ ['.'] from rfl, stripCI_append_pat, hww]
        rfl
      rw [hnone, if_neg (by simp [h3])]

/-- C2 (counterexample): the claim — `isUrl s` is true iff the entire
trimmed string matches the worded bare-URL grammar (optional scheme or
`www.` prefix, hostname label, dot, at least two non-whitespace
characters) — fails at `https://wwwx.example.com`: the worded grammar
accepts it (label `wwwx`), but the regex's `(?:www\.|(?!www))`
lookahead rejects any hostname after a scheme that begins with `www`
without being `www.`, so `isUrl` is false. -/
theorem C2_counterexample :
    ¬(isUrl "https://wwwx.example.com" = true ↔
      specBareUrl (trimJS "https://wwwx.example.com".data)) := by
  intro hiff
  have h2 : specBareUrl (trimJS "https://wwwx.example.com".data) :=
    ⟨"https://".data, "wwwx".data, "example.com".data, by decide,
      Or.inr (Or.inl (by decide)),
      ⟨by decide, by decide, by decide, by decide⟩, by decide, by decide⟩
  exact absurd (hiff.mpr h2) (by decide)

/-- C2 (amended): `isUrl s` is true iff the entire trimmed string
decomposes as prefix, hostname label, dot, and at least two
non-whitespace characters (the TLD together with any
path/query/fragment), where the prefix is a case-insensitive `http://`
or `https://` optionally followed by a literal `www.`, or a bare
`www.` — and, the restriction the claim omitted, a scheme prefix
without `www.` requires the hostname not to begin with `www`. -/
theorem C2_amended_iff (s : String) :
    isUrl s = true ↔ specBareUrlAmended (trimJS s.data) := by
  unfold isUrl specBareUrlAmended
  generalize trimJS s.data = cs
  constructor
  · intro h
    unfold urlFullB at h
    split at h
    next => exact Bool.noConfusion h
    next rest hstrip =>
      unfold labelDotRestFull at h
      rw [Bool.and_eq_true] at h
      obtain ⟨hok, htail⟩ := h
      split at htail
      case h_2 => exact Bool.noConfusion htail
      case h_1 d r2 hdw =>
        rw [Bool.and_eq_true, Bool.and_eq_true] at htail
        obtain ⟨⟨hd, hlen⟩, hall⟩ := htail
        rw [decide_eq_true_eq] at hd hlen
        subst hd
        obtain ⟨p, hp, hor⟩ := stripUrlHead_some_chars hstrip
        have ht := List.takeWhile_append_dropWhile isLabelChar rest
        rw [hdw] at ht
        have hmem : ∀ c ∈ rest.takeWhile isLabelChar, isLabelChar c = true :=
          fun c hc => List.mem_takeWhile_imp hc
        refine ⟨p, rest.takeWhile isLabelChar, r2, ?_, ?_, hlen, ?_, ?_⟩
        · rw [hp, ht]
        · exact specLabel_of_labelOk hmem hok
        · intro c hc
          have hc2 := List.all_eq_true.mp hall c hc
          simpa using hc2
        · rw [ht]
          exact hor
  · rintro ⟨p, lab, r2, hcs, hspec, hlen, hnws, hor⟩
    subst hcs
    obtain ⟨hok, hmem⟩ := labelOk_of_specLabel hspec
    unfold urlFullB
    rw [stripUrlHead_of_parts hor]
    dsimp only
    unfold labelDotRestFull
    rw [takeWhile_append_stop hmem (by decide),
      dropWhile_append_stop hmem (by decide), hok]
    dsimp only
    simp only [Bool.true_and, Bool.and_eq_true, decide_eq_true_eq]
    refine ⟨⟨trivial, hlen⟩, ?_⟩
    exact List.all_eq_true.mpr fun c hc => by simpa using hnws c hc

end AutoCardLink
